import Mathlib

/-!
Verification of `scripts/generate_api_docs.py`, a public-API-surface
comparator.  The Python source is shallowly embedded: strings are lists of
characters, Python `dict` is an insertion-ordered association list, and each
Python function of the comparator core is translated into a Lean definition
of the same name.
-/

set_option autoImplicit false

/-- Strings of the embedded program: lists of characters. -/
abbrev Str := List Char

/-- Python whitespace test (`str.isspace` on the characters relevant here):
space, tab, newline, carriage return, vertical tab, form feed. -/
def isWS (c : Char) : Bool :=
  c == ' ' || c == '\t' || c == '\n' || c == '\r' ||
  c == Char.ofNat 11 || c == Char.ofNat 12

/-- `startsL s p` holds when list `s` begins with `p`
(Python `str.startswith`). -/
def startsL : Str → Str → Bool
  | _, [] => true
  | [], _ :: _ => false
  | c :: s, d :: p => c == d && startsL s p

/-- `subL p s` holds when `p` occurs as a contiguous substring of `s`
(Python `in` on strings). -/
def subL (p : Str) : Str → Bool
  | [] => startsL [] p
  | c :: rest => startsL (c :: rest) p || subL p rest

/-- Python `str.strip()`: remove leading and trailing whitespace. -/
def stripWS (s : Str) : Str :=
  ((s.dropWhile isWS).reverse.dropWhile isWS).reverse

/-- Python `path.split("::")`. -/
def splitSep : Str → List Str
  | [] => [[]]
  | ':' :: ':' :: rest => [] :: splitSep rest
  | c :: rest =>
    match splitSep rest with
    | [] => [[c]]
    | g :: gs => (c :: g) :: gs

/-- Worker for `replaceAll`, structurally recursive on a fuel argument; the
fuel is at least the length of the remaining text, and one unit is spent per
emitted character or replaced occurrence. -/
def replaceAllGo (pat rep : Str) : Nat → Str → Str
  | 0, s => s
  | fuel + 1, s =>
    match s with
    | [] => []
    | c :: rest =>
      if startsL (c :: rest) pat then
        rep ++ replaceAllGo pat rep fuel ((c :: rest).drop pat.length)
      else
        c :: replaceAllGo pat rep fuel rest

/-- Python `s.replace(pat, rep)`: replace every non-overlapping occurrence,
scanning left to right.  (An empty pattern interleaves the replacement,
exactly as in Python; the comparator only ever uses non-empty patterns.) -/
def replaceAll (pat rep : Str) (s : Str) : Str :=
  if pat.isEmpty then rep ++ s.flatMap (fun c => c :: rep)
  else replaceAllGo pat rep s.length s

/-- Python `text.splitlines()` (worker: accumulates the current line
reversed). -/
def splitLinesGo (cur : Str) : Str → List Str
  | [] => [cur.reverse]
  | '\r' :: '\n' :: [] => [cur.reverse]
  | '\r' :: '\n' :: c :: rest => cur.reverse :: splitLinesGo [] (c :: rest)
  | '\n' :: [] => [cur.reverse]
  | '\n' :: c :: rest => cur.reverse :: splitLinesGo [] (c :: rest)
  | '\r' :: [] => [cur.reverse]
  | '\r' :: c :: rest => cur.reverse :: splitLinesGo [] (c :: rest)
  | c :: rest => splitLinesGo (c :: cur) rest

/-- Python `text.splitlines()`: the empty text has no lines. -/
def splitLines (s : Str) : List Str :=
  match s with
  | [] => []
  | _ => splitLinesGo [] s

/-- Worker for `natToStr`, structurally recursive on a fuel argument. -/
def natToStrGo : Nat → Nat → Str
  | 0, _ => []
  | fuel + 1, n =>
    if n < 10 then [Char.ofNat (48 + n)]
    else natToStrGo fuel (n / 10) ++ [Char.ofNat (48 + n % 10)]

/-- Decimal rendering of a natural number (Python `str(n)` as used by the
f-strings of the report). -/
def natToStr (n : Nat) : Str :=
  natToStrGo (n + 1) n

/-- Lexicographic comparison of strings by character code
(Python `<=` on `str`). -/
def strLe : Str → Str → Bool
  | [], _ => true
  | _ :: _, [] => false
  | a :: as, b :: bs =>
    if a.toNat < b.toNat then true
    else if b.toNat < a.toNat then false
    else strLe as bs

/-- Stable insertion of one element into a sorted list: an existing element
`y` stays in front of `x` whenever `le y x`. -/
def insertLe {α : Type} (le : α → α → Bool) (x : α) : List α → List α
  | [] => [x]
  | y :: ys => if le y x then y :: insertLe le x ys else x :: y :: ys

/-- Stable sort by repeated insertion (model of Python `sorted`). -/
def sortBy {α : Type} (le : α → α → Bool) (l : List α) : List α :=
  l.foldl (fun acc x => insertLe le x acc) []


/-! ## Data model and line parser -/

/-- One exported symbol (`ApiItem` dataclass of the source). -/
structure ApiItem where
  kind : Str
  path : Str
  signature : Str
  name : Str
  parent : Str
deriving DecidableEq, Repr

/-- The dependency denylist of `parse_api_line` (fragments whose presence in
the path marks a re-exported dependency item). -/
def depList : List Str :=
  ["stabby_abi".data, "ppv_lite86".data, "crossbeam_epoch".data,
   "zenoh_keyexpr".data, "asn1_rs".data, "typenum".data, "either".data,
   "tracing::".data, "core::".data, "alloc::".data, "std::".data]

/-- The compiler-synthesized method-name fragments of `parse_api_line`
(checked against the whole line). -/
def autoList : List Str :=
  ["::borrow(".data, "::borrow_mut(".data, "::from(".data, "::into(".data,
   "::try_from(".data, "::try_into(".data, "::type_id(".data,
   "::clone(".data, "::clone_from(".data, "::default(".data,
   "::eq(".data, "::ne(".data, "::partial_cmp(".data, "::cmp(".data,
   "::hash(".data, "::fmt(".data,
   "::guard_mut_inner(".data, "::guard_ref_inner(".data,
   "::mut_as<".data, "::ref_as<".data, "::as_node(".data, "::as_node_mut(".data,
   "::vzip(".data, "::to_owned(".data, "::clone_into(".data,
   "::__clone_box(".data, "::deref(".data, "::deref_mut(".data]

/-- The trait-associated type-alias placeholder fragments of
`parse_api_line` (checked against the path when the kind is `type`). -/
def typeList : List Str :=
  ["::Error".data, "::Output".data, "::Guard<".data, "::GuardMut<".data,
   "::Init".data, "::Owned".data, "::Request".data]

/-- Feasibility of a split of the text after `pub fn ` at paren position `j`
for the regular expression `(\S+::\S+)\(`: the character at `j` is `(`,
everything before it is non-whitespace, and a `::` separator leaving both
sides non-empty occurs before it. -/
def feasibleB (t : Str) (j : Nat) : Bool :=
  decide (j < t.length) &&
  (t.getD j ' ' == '(') &&
  (t.take j).all (fun c => !isWS c) &&
  (List.range j).any (fun i =>
    decide (1 ≤ i) && decide (i + 3 ≤ j) &&
    (t.getD i ' ' == ':') && (t.getD (i + 1) ' ' == ':'))

/-- Largest feasible paren position below the bound, if any (the greedy
quantifiers of the regular expression pick the largest feasible split). -/
def findLastFeas (t : Str) : Nat → Option Nat
  | 0 => none
  | j + 1 => if feasibleB t j then some j else findLastFeas t j

/-- Group 2 of the function pattern `^pub (fn) (\S+::\S+)\((.*)` applied to
the text after `pub fn `: the greedy match takes the path up to the largest
feasible paren position. -/
def fnPath (t : Str) : Option Str :=
  (findLastFeas t t.length).map (fun j => t.take j)

/-- A `::` separator occurs strictly inside the token with at least one
character on each side: the requirement `\S+::\S+` puts on a whitespace-free
token (used to state when the function grammar accepts a path). -/
def hasSepInside (p : Str) : Bool :=
  (List.range p.length).any (fun i =>
    decide (1 ≤ i) && decide (i + 3 ≤ p.length) &&
    (p.getD i ' ' == ':') && (p.getD (i + 1) ' ' == ':'))

/-- Group 2 of the simple patterns `^pub (<kw>) (\S+)` applied to the text
after the keyword: the maximal non-empty run of non-whitespace characters. -/
def simplePath (t : Str) : Option Str :=
  let p := t.takeWhile (fun c => !isWS c)
  if p.isEmpty then none else some p

/-- The filter chain and record construction shared by all seven grammars of
`parse_api_line`: crate-name check, dependency denylist, synthesized-method
fragments, type-alias placeholders, the `ALIGN` constant, then name/parent
extraction. -/
def finishItem (kind : Str) (path : Str) (line : Str) (crate : Str) :
    Option ApiItem :=
  if !startsL path crate then none
  else if depList.any (fun d => subL d path) then none
  else if autoList.any (fun m => subL m line) then none
  else if kind == "type".data && typeList.any (fun x => subL x path) then none
  else if kind == "const".data && subL "::ALIGN".data path then none
  else
    let parts := splitSep path
    let name := match parts with
      | [] => path
      | _ => parts.getLastD []
    let parent := if parts.length > 1 then
        List.intercalate "::".data parts.dropLast
      else []
    some ⟨kind, path, line, name, parent⟩

/-- `parse_api_line` of the source: try the seven grammars in order (their
leading keywords are mutually exclusive), then run the filter chain. -/
def parse_api_line (line : Str) (crate : Str) : Option ApiItem :=
  if startsL line "pub fn ".data then
    (fnPath (line.drop 7)).bind (fun p => finishItem "fn".data p line crate)
  else if startsL line "pub struct ".data then
    (simplePath (line.drop 11)).bind (fun p => finishItem "struct".data p line crate)
  else if startsL line "pub enum ".data then
    (simplePath (line.drop 9)).bind (fun p => finishItem "enum".data p line crate)
  else if startsL line "pub type ".data then
    (simplePath (line.drop 9)).bind (fun p => finishItem "type".data p line crate)
  else if startsL line "pub const ".data then
    (simplePath (line.drop 10)).bind (fun p => finishItem "const".data p line crate)
  else if startsL line "pub mod ".data then
    (simplePath (line.drop 8)).bind (fun p => finishItem "mod".data p line crate)
  else if startsL line "pub trait ".data then
    (simplePath (line.drop 10)).bind (fun p => finishItem "trait".data p line crate)
  else none






/-! ## Registry construction (path normalizer and registry builder) -/

/-- A registry: Python's insertion-ordered `dict`, as an association list
with unique keys. -/
abbrev Registry := List (Str × ApiItem)

/-- Python `d[k] = v`: overwrite in place when the key exists, otherwise
append at the end. -/
def insertReg : Registry → Str → ApiItem → Registry
  | [], k, v => [(k, v)]
  | (k', v') :: rest, k, v =>
    if k' = k then (k', v) :: rest else (k', v') :: insertReg rest k v

/-- Python `d.get(k)`: first (hence unique) binding of the key. -/
def lookupReg : Registry → Str → Option ApiItem
  | [], _ => none
  | (k', v') :: rest, k => if k' = k then some v' else lookupReg rest k

/-- Python `d.keys()` in insertion order. -/
def keysList (r : Registry) : List Str :=
  r.map Prod.fst

/-- Python `d.values()` in insertion order. -/
def valuesList (r : Registry) : List ApiItem :=
  r.map Prod.snd

/-- The normalized registry key of `extract_apis`:
`item.path.replace(crate_name, "oxidros")`. -/
def normalizeKey (crate : Str) (path : Str) : Str :=
  replaceAll crate "oxidros".data path

/-- One loop iteration of `extract_apis`: strip the raw line, require the
leading `pub `, parse, and pair the surviving record with its normalized
key. -/
def processLine (crate : Str) (rawLine : Str) : Option (Str × ApiItem) :=
  let line := stripWS rawLine
  if startsL line "pub ".data then
    (parse_api_line line crate).map (fun it => (normalizeKey crate it.path, it))
  else none

/-- One fold step of the `extract_apis` loop. -/
def regStep (crate : Str) (reg : Registry) (rawLine : Str) : Registry :=
  match processLine crate rawLine with
  | none => reg
  | some (k, it) => insertReg reg k it

/-- The registry built from a list of raw lines (the loop of
`extract_apis`). -/
def buildRegistry (lines : List Str) (crate : Str) : Registry :=
  lines.foldl (regStep crate) []

/-- `extract_apis` of the source: split the raw text into lines and build
the registry. -/
def extract_apis (output : Str) (crate : Str) : Registry :=
  buildRegistry (splitLines output) crate

/-! ## Surface differ -/

/-- Key set of a registry (`set(apis.keys())`). -/
def keysF (r : Registry) : Finset Str :=
  (r.map Prod.fst).toFinset

/-- `common = zenoh_keys & rcl_keys` of `generate_markdown`. -/
def commonF (a b : Registry) : Finset Str :=
  keysF a ∩ keysF b

/-- `zenoh_only = zenoh_keys - rcl_keys` of `generate_markdown`. -/
def onlyAF (a b : Registry) : Finset Str :=
  keysF a \ keysF b

/-- `rcl_only = rcl_keys - zenoh_keys` of `generate_markdown`. -/
def onlyBF (a b : Registry) : Finset Str :=
  keysF b \ keysF a

/-- The common keys as a list (the same set as `commonF`, in the first
registry's insertion order; `generate_markdown` sorts it before use). -/
def commonKeys (a b : Registry) : List Str :=
  (keysList a).filter (fun k => (keysList b).contains k)

/-- The keys present only in the first registry, as a list. -/
def onlyKeys (a b : Registry) : List Str :=
  (keysList a).filter (fun k => !(keysList b).contains k)

/-! ## Module categorizer -/

/-- Python `defaultdict(list)` append: extend the list of an existing key in
place, otherwise add a new singleton group at the end. -/
def appendGroup : List (Str × List ApiItem) → Str → ApiItem → List (Str × List ApiItem)
  | [], m, it => [(m, [it])]
  | (m', its) :: rest, m, it =>
    if m' = m then (m', its ++ [it]) :: rest
    else (m', its) :: appendGroup rest m it

/-- `defaultdict` read access with the empty default. -/
def findGroup : List (Str × List ApiItem) → Str → List ApiItem
  | [], _ => []
  | (m', its) :: rest, m => if m' = m then its else findGroup rest m

/-- The module key of a path or normalized key:
`parts[1] if len(parts) > 1 else "root"`. -/
def moduleOf (k : Str) : Str :=
  let parts := splitSep k
  if parts.length > 1 then parts.getD 1 [] else "root".data

/-- `categorize_by_module` of the source: group the registry's values by the
second segment of their (un-normalized) path, skipping any record whose path
has fewer than two segments; the `"root"` default of the inner conditional
(`moduleOf`) is kept verbatim from the source even though the outer guard
makes it unreachable. -/
def categorize_by_module (apis : Registry) : List (Str × List ApiItem) :=
  (valuesList apis).foldl (fun bm item =>
    if (splitSep item.path).length ≥ 2 then
      appendGroup bm (moduleOf item.path) item
    else bm) []

/-! ## Report renderer -/

/-- The per-partition grouping loop of `generate_markdown`
(`for key in sorted(part): item = reg[key]; module = key.split("::")[1] ...`):
sorts the partition's keys, looks each key up in the given registry and
appends the record to its module group, the module being the second segment
of the normalized key or `"root"` for single-segment keys. -/
def groupStep (reg : Registry) (bm : List (Str × List ApiItem)) (k : Str) :
    List (Str × List ApiItem) :=
  match lookupReg reg k with
  | some item => appendGroup bm (moduleOf k) item
  | none => bm

def partGroups (reg : Registry) (part : List Str) : List (Str × List ApiItem) :=
  (sortBy strLe part).foldl (groupStep reg) []

/-- The rendered shape of one report section before text assembly: module
groups in sorted module order, each group's records sorted by `name`. -/
def sectionStructure (reg : Registry) (part : List Str) : List (Str × List ApiItem) :=
  (sortBy strLe ((partGroups reg part).map Prod.fst)).map
    (fun m => (m, sortBy (fun a b => strLe a.name b.name) (findGroup (partGroups reg part) m)))

/-- The text lines of one report section: per module a `###` heading, a
blank line, a fenced code block with the sorted signatures (the component
placeholder stripped), and a closing fence plus blank line. -/
def sectionLines (reg : Registry) (part : List Str) (stripTok : Str) : List Str :=
  (sectionStructure reg part).flatMap (fun blk =>
    ["### ".data ++ blk.1, [], "```rust".data]
    ++ blk.2.map (fun it => replaceAll stripTok [] it.signature)
    ++ ["```".data, []])

/-- The fixed header of the report plus the summary table
(`lines = [...]` of `generate_markdown`). -/
def headerLines (nCommon nZenohOnly nRclOnly : Nat) : List Str :=
  ["# Oxidros API Reference".data,
   [],
   "This document is auto-generated by `scripts/generate_api_docs.py`.".data,
   [],
   "## Summary".data,
   [],
   "| Category | Count |".data,
   "|----------|-------|".data,
   "| Common APIs | ".data ++ natToStr nCommon ++ " |".data,
   "| Zenoh-only APIs | ".data ++ natToStr nZenohOnly ++ " |".data,
   "| RCL-only APIs | ".data ++ natToStr nRclOnly ++ " |".data,
   [],
   "---".data,
   []]

/-- The introduction of the common-APIs section. -/
def commonIntro : List Str :=
  ["## Common APIs (Both Backends)".data,
   [],
   ("These APIs are available in both `oxidros-rcl` and `oxidros-zenoh` "
    ++ "with the same signature.").data,
   []]

/-- The introduction of the zenoh-only section. -/
def zenohIntro : List Str :=
  ["---".data, [],
   "## Zenoh-Only APIs".data,
   [],
   "These APIs are specific to `oxidros-zenoh`.".data,
   []]

/-- The introduction of the rcl-only section. -/
def rclIntro : List Str :=
  ["---".data, [],
   "## RCL-Only APIs".data,
   [],
   "These APIs are specific to `oxidros-rcl`.".data,
   []]

/-- `generate_markdown` of the source, stopping short of the final file
write: the full list of text lines of the report. -/
def generate_markdown (zenoh_apis rcl_apis : Registry) : List Str :=
  let common := commonKeys zenoh_apis rcl_apis
  let zenohOnly := onlyKeys zenoh_apis rcl_apis
  let rclOnly := onlyKeys rcl_apis zenoh_apis
  headerLines common.length zenohOnly.length rclOnly.length
  ++ commonIntro
  ++ sectionLines zenoh_apis common "oxidros_zenoh::".data
  ++ zenohIntro
  ++ sectionLines zenoh_apis zenohOnly "oxidros_zenoh::".data
  ++ rclIntro
  ++ sectionLines rcl_apis rclOnly "oxidros_rcl::".data

/-- Specification-side notion for the overwrite law of the registry: the
value of the LAST pair of the list carrying the given key, if any.  The
registry builder is proved to realize this function. -/
def lastMatch (k : Str) : List (Str × ApiItem) → Option ApiItem
  | [] => none
  | (k', v) :: rest =>
    match lastMatch k rest with
    | some v' => some v'
    | none => if k' = k then some v else none

/-! ## Helper lemmas -/

theorem startsL_nil_right (s : Str) : startsL s [] = true := by
  cases s <;> rfl

theorem subL_nil (s : Str) : subL [] s = true := by
  cases s <;> simp [subL, startsL_nil_right]

theorem startsL_refl_append (p r : Str) : startsL (p ++ r) p = true := by
  induction p with
  | nil => exact startsL_nil_right r
  | cons c cs ih => simp [startsL, ih]

theorem startsL_append_right {s p : Str} (r : Str) (h : startsL s p = true) :
    startsL (s ++ r) p = true := by
  induction p generalizing s with
  | nil => exact startsL_nil_right _
  | cons d ps ih =>
    cases s with
    | nil => simp [startsL] at h
    | cons c cs =>
      simp only [startsL, Bool.and_eq_true] at h ⊢
      exact ⟨h.1, ih h.2⟩

theorem subL_append_right {p s : Str} (r : Str) (h : subL p s = true) :
    subL p (s ++ r) = true := by
  induction s with
  | nil =>
    cases p with
    | nil => exact subL_nil r
    | cons d ps => simp [subL, startsL] at h
  | cons c cs ih =>
    simp only [subL, Bool.or_eq_true] at h ⊢
    rcases h with h | h
    · exact Or.inl (startsL_append_right r h)
    · exact Or.inr (ih h)

theorem subL_append_left {p r : Str} (s : Str) (h : subL p r = true) :
    subL p (s ++ r) = true := by
  induction s with
  | nil => exact h
  | cons c cs ih =>
    simp only [List.cons_append, subL, Bool.or_eq_true]
    exact Or.inr ih

theorem subL_of_take {p t : Str} {j : Nat} (h : subL p (t.take j) = true) :
    subL p t = true := by
  have := subL_append_right (t.drop j) h
  rwa [List.take_append_drop] at this

theorem replaceAllGo_no_occ {pat rep : Str} :
    ∀ (fuel : Nat) (s : Str), s.length ≤ fuel → subL pat s = false →
      replaceAllGo pat rep fuel s = s := by
  intro fuel
  induction fuel with
  | zero => intro s _ _; rfl
  | succ n ih =>
    intro s hlen hsub
    cases s with
    | nil => rfl
    | cons c rest =>
      simp only [subL, Bool.or_eq_false_iff] at hsub
      simp only [replaceAllGo, hsub.1, Bool.false_eq_true, if_false]
      have : rest.length ≤ n := by
        simp only [List.length_cons] at hlen; omega
      rw [ih rest this hsub.2]

theorem replaceAll_no_occ {pat rep s : Str} (h : subL pat s = false) :
    replaceAll pat rep s = s := by
  have hpat : pat ≠ [] := by
    intro he; rw [he, subL_nil] at h; cases h
  unfold replaceAll
  rw [if_neg (by simpa [List.isEmpty_iff] using hpat)]
  exact replaceAllGo_no_occ s.length s (Nat.le_refl _) h

theorem lookup_insertReg (r : Registry) (k k' : Str) (v : ApiItem) :
    lookupReg (insertReg r k v) k' =
      if k = k' then some v else lookupReg r k' := by
  induction r with
  | nil => simp [insertReg, lookupReg]
  | cons p rest ih =>
    obtain ⟨a, b⟩ := p
    simp only [insertReg]
    by_cases hak : a = k
    · subst hak
      simp only [if_pos rfl, lookupReg]
      by_cases hak' : a = k'
      · subst hak'; simp
      · simp [hak', lookupReg]
    · rw [if_neg hak]
      simp only [lookupReg, ih]
      by_cases hak' : a = k'
      · subst hak'
        have : ¬ k = a := fun he => hak he.symm
        simp [this]
      · simp [hak']

theorem foldl_regStep_eq (crate : Str) (lines : List Str) :
    ∀ reg : Registry,
      lines.foldl (regStep crate) reg =
        (lines.filterMap (processLine crate)).foldl
          (fun r p => insertReg r p.1 p.2) reg := by
  induction lines with
  | nil => intro reg; rfl
  | cons l ls ih =>
    intro reg
    cases h : processLine crate l with
    | none => simp [regStep, h, ih]
    | some p => cases p with
      | mk k it => simp [regStep, h, ih]

theorem lookup_foldl_insert (k : Str) (recs : List (Str × ApiItem)) :
    ∀ reg : Registry,
      lookupReg (recs.foldl (fun r p => insertReg r p.1 p.2) reg) k =
        match lastMatch k recs with
        | some v => some v
        | none => lookupReg reg k := by
  induction recs with
  | nil => intro reg; simp [lastMatch]
  | cons p rest ih =>
    intro reg
    obtain ⟨k0, v0⟩ := p
    simp only [List.foldl_cons, lastMatch]
    rw [ih]
    cases lastMatch k rest with
    | some v => simp
    | none =>
      simp only [lookup_insertReg]
      by_cases hk : k0 = k
      · simp [hk]
      · simp [hk]

theorem lastMatch_mem {k : Str} {v : ApiItem} :
    ∀ {l : List (Str × ApiItem)}, lastMatch k l = some v → (k, v) ∈ l := by
  intro l
  induction l with
  | nil => intro h; cases h
  | cons p rest ih =>
    obtain ⟨k0, v0⟩ := p
    intro h
    simp only [lastMatch] at h
    cases hrest : lastMatch k rest with
    | some v' =>
      rw [hrest] at h
      cases h
      exact List.mem_cons_of_mem _ (ih hrest)
    | none =>
      rw [hrest] at h
      by_cases hk : k0 = k
      · rw [if_pos hk] at h
        cases h
        subst hk
        exact List.mem_cons_self _ _
      · rw [if_neg hk] at h
        cases h

theorem processLine_parse {crate rawLine k : Str} {it : ApiItem}
    (h : processLine crate rawLine = some (k, it)) :
    parse_api_line (stripWS rawLine) crate = some it ∧
    k = normalizeKey crate it.path := by
  unfold processLine at h
  by_cases hp : startsL (stripWS rawLine) "pub ".data = true
  · rw [if_pos hp] at h
    cases hparse : parse_api_line (stripWS rawLine) crate with
    | none => rw [hparse] at h; cases h
    | some it' =>
      rw [hparse] at h
      simp only [Option.map_some'] at h
      cases h
      exact ⟨rfl, rfl⟩
  · rw [if_neg hp] at h
    cases h

theorem finishItem_sound {kind path line crate : Str} {it : ApiItem}
    (h : finishItem kind path line crate = some it) :
    it.kind = kind ∧ it.path = path ∧ it.signature = line ∧
    startsL path crate = true ∧
    depList.any (fun d => subL d path) = false ∧
    autoList.any (fun m => subL m line) = false ∧
    (kind == "type".data && typeList.any (fun x => subL x path)) = false ∧
    (kind == "const".data && subL "::ALIGN".data path) = false := by
  unfold finishItem at h
  split_ifs at h with h1 h2 h3 h4 h5
  cases h
  refine ⟨rfl, rfl, rfl, ?_, ?_, ?_, ?_, ?_⟩
  · simpa using h1
  · simpa using h2
  · simpa using h3
  · simpa using h4
  · simpa using h5

theorem parse_api_line_sound {line crate : Str} {it : ApiItem}
    (h : parse_api_line line crate = some it) :
    startsL it.path crate = true ∧
    depList.any (fun d => subL d it.path) = false ∧
    autoList.any (fun m => subL m it.signature) = false ∧
    (it.kind = "type".data → typeList.any (fun x => subL x it.path) = false) ∧
    (it.kind = "const".data → subL "::ALIGN".data it.path = false) := by
  unfold parse_api_line at h
  split_ifs at h
  all_goals
    rcases Option.bind_eq_some.mp h with ⟨path, _, hfin⟩
  all_goals
    rcases finishItem_sound hfin with ⟨hk, hp, hs, r1, r2, r3, r4, r5⟩
  all_goals rw [hp, hs]
  all_goals refine ⟨r1, r2, r3, ?_, ?_⟩
  all_goals intro hkt
  all_goals rw [hk] at hkt
  all_goals
    first
      | exact absurd hkt (by decide)
      | simpa using r4
      | simpa using r5

/-! ## Claim theorems -/

/-- C1: for every pair of registries A and B, the Surface Differ's three
sets satisfy the partition law: `common ∪ onlyA ∪ onlyB` equals
`keys(A) ∪ keys(B)`, and `common`, `onlyA`, `onlyB` are pairwise
disjoint. -/
theorem surface_differ_partition (a b : Registry) :
    commonF a b ∪ onlyAF a b ∪ onlyBF a b = keysF a ∪ keysF b ∧
    Disjoint (commonF a b) (onlyAF a b) ∧
    Disjoint (commonF a b) (onlyBF a b) ∧
    Disjoint (onlyAF a b) (onlyBF a b) := by
  refine ⟨?_, ?_, ?_, ?_⟩
  · ext x
    simp only [commonF, onlyAF, onlyBF, Finset.mem_union, Finset.mem_inter,
      Finset.mem_sdiff]
    tauto
  all_goals
    rw [Finset.disjoint_left]
    intro x hx hy
    simp only [commonF, onlyAF, onlyBF, Finset.mem_inter, Finset.mem_sdiff]
      at hx hy
    tauto

/-- C2: evaluation of `categorize_by_module` at the failing input.  The
registry built from the single line `pub struct oxidros_zenoh` holds one
record whose path has a single segment, yet `categorize_by_module` places
it in no module group (its `len(parts) >= 2` guard makes the `"root"`
fallback of the inner conditional unreachable), so the union of the
per-module sequences misses the record. -/
theorem categorize_by_module_drops_single_segment :
    buildRegistry ["pub struct oxidros_zenoh".data] "oxidros_zenoh".data =
      [("oxidros".data,
        ⟨"struct".data, "oxidros_zenoh".data,
         "pub struct oxidros_zenoh".data, "oxidros_zenoh".data, []⟩)] ∧
    categorize_by_module
        (buildRegistry ["pub struct oxidros_zenoh".data]
          "oxidros_zenoh".data) = [] := by
  decide

/-- C3 counterexample: normalization is NOT idempotent for every path
string: on `oxidros_zenoh_zenoh` the first replacement yields
`oxidros_zenoh`, which still contains the crate name, so a second
normalization changes it again. -/
theorem normalize_not_idempotent_cx :
    normalizeKey "oxidros_zenoh".data
        (normalizeKey "oxidros_zenoh".data "oxidros_zenoh_zenoh".data) ≠
      normalizeKey "oxidros_zenoh".data "oxidros_zenoh_zenoh".data := by
  decide

/-- C3 (amended): normalization is idempotent for every path whose
normalized form no longer contains the crate name (which holds for every
realistic path, but can fail on contrived paths such as
`oxidros_zenoh_zenoh`). -/
theorem normalize_idempotent_when_crate_gone (crate p : Str)
    (h : subL crate (normalizeKey crate p) = false) :
    normalizeKey crate (normalizeKey crate p) = normalizeKey crate p :=
  replaceAll_no_occ h

/-- C3 witness: the amended idempotence theorem applied at a concrete
realistic path. -/
theorem normalize_idempotent_witness :
    subL "oxidros_zenoh".data
        (normalizeKey "oxidros_zenoh".data "oxidros_zenoh::Context".data)
      = false ∧
    normalizeKey "oxidros_zenoh".data
        (normalizeKey "oxidros_zenoh".data "oxidros_zenoh::Context".data) =
      normalizeKey "oxidros_zenoh".data "oxidros_zenoh::Context".data :=
  ⟨by decide,
   normalize_idempotent_when_crate_gone "oxidros_zenoh".data
     "oxidros_zenoh::Context".data (by decide)⟩

/-- C4 counterexample: the claim fails for the placeholder name `Guard`: the
type-alias filter matches the fragment `::Guard<` (generic form only), so
the otherwise-valid line `pub type oxidros_zenoh::Guard`, whose path's
final segment is exactly the placeholder name `Guard`, DOES contribute an
entry to the registry. -/
theorem type_alias_guard_survives_cx :
    lookupReg
        (buildRegistry ["pub type oxidros_zenoh::Guard".data]
          "oxidros_zenoh".data)
        "oxidros::Guard".data =
      some ⟨"type".data, "oxidros_zenoh::Guard".data,
        "pub type oxidros_zenoh::Guard".data, "Guard".data,
        "oxidros_zenoh".data⟩ := by
  decide

/-- C4 (amended): every record that reaches the registry passed the whole
noise filter: its path contains no denylisted dependency fragment, its
signature contains no compiler-synthesized method fragment, a type-alias
record's path contains none of the placeholder fragments `::Error`,
`::Output`, `::Guard<`, `::GuardMut<`, `::Init`, `::Owned`, `::Request`
(so `Guard` is only matched in its generic bracketed form), and a constant
record's path does not contain `::ALIGN`.  Contrapositively, an
otherwise-valid line with any of those features contributes no entry. -/
theorem registry_records_pass_noise_filter (lines : List Str)
    (crate k : Str) (it : ApiItem)
    (h : lookupReg (buildRegistry lines crate) k = some it) :
    startsL it.path crate = true ∧
    depList.any (fun d => subL d it.path) = false ∧
    autoList.any (fun m => subL m it.signature) = false ∧
    (it.kind = "type".data → typeList.any (fun x => subL x it.path) = false) ∧
    (it.kind = "const".data → subL "::ALIGN".data it.path = false) := by
  unfold buildRegistry at h
  rw [foldl_regStep_eq, lookup_foldl_insert] at h
  cases hlm : lastMatch k (lines.filterMap (processLine crate)) with
  | none => rw [hlm] at h; simp [lookupReg] at h
  | some v =>
    rw [hlm] at h
    have hv : v = it := by injection h
    subst hv
    have hmem := lastMatch_mem hlm
    rcases List.mem_filterMap.mp hmem with ⟨rawLine, _, hproc⟩
    rcases processLine_parse hproc with ⟨hparse, _⟩
    exact parse_api_line_sound hparse

/-- C4 witness: the amended noise-filter theorem applied to the registry
built from one concrete surviving line. -/
theorem registry_noise_filter_witness :
    lookupReg
        (buildRegistry ["pub struct oxidros_zenoh::Context".data]
          "oxidros_zenoh".data)
        "oxidros::Context".data =
      some ⟨"struct".data, "oxidros_zenoh::Context".data,
        "pub struct oxidros_zenoh::Context".data, "Context".data,
        "oxidros_zenoh".data⟩ ∧
    startsL ("oxidros_zenoh::Context".data) "oxidros_zenoh".data = true :=
  ⟨by decide,
   (registry_records_pass_noise_filter
      ["pub struct oxidros_zenoh::Context".data] "oxidros_zenoh".data
      "oxidros::Context".data
      ⟨"struct".data, "oxidros_zenoh::Context".data,
        "pub struct oxidros_zenoh::Context".data, "Context".data,
        "oxidros_zenoh".data⟩ (by decide)).1⟩

/-- C5 counterexample: a raw input line that does not begin with `pub `
(it begins with a space) still produces a record, because `extract_apis`
strips the line before testing the prefix. -/
theorem raw_leading_space_line_produces_record_cx :
    startsL " pub mod oxidros_zenoh::x".data "pub ".data = false ∧
    buildRegistry [" pub mod oxidros_zenoh::x".data] "oxidros_zenoh".data =
      [("oxidros::x".data,
        ⟨"mod".data, "oxidros_zenoh::x".data,
         "pub mod oxidros_zenoh::x".data, "x".data,
         "oxidros_zenoh".data⟩)] := by
  decide

/-- C5 (amended): a raw line that, AFTER stripping surrounding whitespace,
does not begin with `pub ` never produces a record: it is rejected by
`processLine` and contributes nothing to the registry wherever it occurs
in the listing. -/
theorem nonpub_after_strip_no_record (crate line : Str)
    (pre post : List Str)
    (h : startsL (stripWS line) "pub ".data = false) :
    processLine crate line = none ∧
    buildRegistry (pre ++ line :: post) crate =
      buildRegistry (pre ++ post) crate := by
  have hnone : processLine crate line = none := by
    unfold processLine
    simp [h]
  refine ⟨hnone, ?_⟩
  unfold buildRegistry
  have hsplit : pre ++ line :: post = (pre ++ [line]) ++ post := by simp
  rw [hsplit, List.foldl_append, List.foldl_append, List.foldl_append]
  simp [regStep, hnone]

/-- C5 witness: the amended rejection law applied at a concrete non-`pub`
line placed between two other lines. -/
theorem nonpub_no_record_witness :
    startsL (stripWS "fn hidden()".data) "pub ".data = false ∧
    buildRegistry
        (["pub mod oxidros_zenoh::a".data] ++ "fn hidden()".data ::
          ["pub mod oxidros_zenoh::b".data]) "oxidros_zenoh".data =
      buildRegistry
        (["pub mod oxidros_zenoh::a".data] ++
          ["pub mod oxidros_zenoh::b".data]) "oxidros_zenoh".data :=
  ⟨by decide,
   (nonpub_after_strip_no_record "oxidros_zenoh".data "fn hidden()".data
      ["pub mod oxidros_zenoh::a".data] ["pub mod oxidros_zenoh::b".data]
      (by decide)).2⟩

/-- C7: registry construction processes lines in input order; the lookup of
any key in the built registry returns exactly the record of the LAST
surviving line whose normalized key equals it (`lastMatch`), so on a
collision the later line silently wins and all other keys are
unaffected. -/
theorem registry_overwrite_later_wins (lines : List Str) (crate k : Str) :
    lookupReg (buildRegistry lines crate) k =
      lastMatch k (lines.filterMap (processLine crate)) := by
  unfold buildRegistry
  rw [foldl_regStep_eq, lookup_foldl_insert]
  cases lastMatch k (lines.filterMap (processLine crate)) <;>
    simp [lookupReg]

theorem mem_insertLe {α : Type} (le : α → α → Bool) (x a : α) :
    ∀ l : List α, a ∈ insertLe le x l ↔ a = x ∨ a ∈ l := by
  intro l
  induction l with
  | nil => simp [insertLe]
  | cons y ys ih =>
    simp only [insertLe]
    by_cases hle : le y x = true
    · rw [if_pos hle]
      simp only [List.mem_cons, ih]
      tauto
    · rw [if_neg hle]
      simp only [List.mem_cons]

theorem insertLe_pairwise {α : Type} (le : α → α → Bool)
    (htot : ∀ a b, le a b = true ∨ le b a = true)
    (htr : ∀ a b c, le a b = true → le b c = true → le a c = true)
    (x : α) :
    ∀ l : List α, l.Pairwise (fun a b => le a b = true) →
      (insertLe le x l).Pairwise (fun a b => le a b = true) := by
  intro l
  induction l with
  | nil => intro _; simp [insertLe]
  | cons y ys ih =>
    intro h
    rcases List.pairwise_cons.mp h with ⟨hy, hys⟩
    simp only [insertLe]
    by_cases hle : le y x = true
    · rw [if_pos hle]
      refine List.pairwise_cons.mpr ⟨?_, ih hys⟩
      intro b hb
      rcases (mem_insertLe le x b ys).mp hb with hbx | hbys
      · rw [hbx]; exact hle
      · exact hy b hbys
    · rw [if_neg hle]
      have hxy : le x y = true := by
        rcases htot x y with h' | h'
        · exact h'
        · exact absurd h' hle
      refine List.pairwise_cons.mpr ⟨?_, h⟩
      intro b hb
      rcases List.mem_cons.mp hb with hby | hbys
      · rw [hby]; exact hxy
      · exact htr x y b hxy (hy b hbys)

theorem sortBy_pairwise {α : Type} (le : α → α → Bool)
    (htot : ∀ a b, le a b = true ∨ le b a = true)
    (htr : ∀ a b c, le a b = true → le b c = true → le a c = true)
    (l : List α) :
    (sortBy le l).Pairwise (fun a b => le a b = true) := by
  have key : ∀ (l : List α) (acc : List α),
      acc.Pairwise (fun a b => le a b = true) →
      (l.foldl (fun acc x => insertLe le x acc) acc).Pairwise
        (fun a b => le a b = true) := by
    intro l
    induction l with
    | nil => intro acc h; exact h
    | cons x xs ih =>
      intro acc h
      exact ih (insertLe le x acc) (insertLe_pairwise le htot htr x acc h)
  exact key l [] (by simp)

theorem mem_sortBy {α : Type} (le : α → α → Bool) (a : α) (l : List α) :
    a ∈ sortBy le l ↔ a ∈ l := by
  have key : ∀ (l acc : List α),
      a ∈ l.foldl (fun acc x => insertLe le x acc) acc ↔ a ∈ acc ∨ a ∈ l := by
    intro l
    induction l with
    | nil => intro acc; simp
    | cons x xs ih =>
      intro acc
      simp only [List.foldl_cons, ih, mem_insertLe, List.mem_cons]
      tauto
  simpa using key l []

theorem strLe_total : ∀ a b : Str, strLe a b = true ∨ strLe b a = true := by
  intro a
  induction a with
  | nil => intro b; left; rfl
  | cons c cs ih =>
    intro b
    cases b with
    | nil => right; rfl
    | cons d ds =>
      simp only [strLe]
      rcases Nat.lt_trichotomy c.toNat d.toNat with h | h | h
      · left; simp [h]
      · have h1 : ¬ c.toNat < d.toNat := by omega
        have h2 : ¬ d.toNat < c.toNat := by omega
        simp only [h1, h2, if_false]
        exact ih ds
      · right; simp [h]

theorem strLe_trans :
    ∀ a b c : Str, strLe a b = true → strLe b c = true →
      strLe a c = true := by
  intro a
  induction a with
  | nil => intro b c _ _; rfl
  | cons x xs ih =>
    intro b c hab hbc
    cases b with
    | nil => simp [strLe] at hab
    | cons y ys =>
      cases c with
      | nil => simp [strLe] at hbc
      | cons z zs =>
        simp only [strLe] at hab hbc ⊢
        split_ifs at hab hbc ⊢ <;>
          first
            | rfl
            | omega
            | (exact ih ys zs hab hbc)

theorem map_fst_pairs {α β : Type} (f : α → β) (l : List α) :
    (l.map (fun m => (m, f m))).map Prod.fst = l := by
  induction l with
  | nil => rfl
  | cons x xs ih => simp [ih]

/-- C9: in the rendered report every partition's section lists its module
subsections in lexicographic order of module name, and within each module
subsection the records appear in lexicographic order of their `name` field.
(`sectionStructure` is the shape that `sectionLines` flattens into text, one
instance per partition of `generate_markdown`.) -/
theorem report_sections_sorted (reg : Registry) (part : List Str) :
    ((sectionStructure reg part).map Prod.fst).Pairwise
      (fun a b => strLe a b = true) ∧
    ∀ blk ∈ sectionStructure reg part,
      blk.2.Pairwise (fun a b : ApiItem => strLe a.name b.name = true) := by
  constructor
  · unfold sectionStructure
    rw [map_fst_pairs]
    exact sortBy_pairwise strLe strLe_total strLe_trans _
  · intro blk hblk
    unfold sectionStructure at hblk
    rcases List.mem_map.mp hblk with ⟨m, _, hm⟩
    subst hm
    exact sortBy_pairwise (fun a b : ApiItem => strLe a.name b.name)
      (fun (a b : ApiItem) => strLe_total a.name b.name)
      (fun (a b c : ApiItem) => strLe_trans a.name b.name c.name) _

/-- C9 witness: the sortedness theorem applied at a concrete two-record
registry whose keys arrive in reverse order. -/
theorem report_sections_sorted_witness :
    (((sectionStructure
        (buildRegistry ["pub mod oxidros_zenoh::b".data,
          "pub mod oxidros_zenoh::a".data] "oxidros_zenoh".data)
        ["oxidros::b".data, "oxidros::a".data]).map Prod.fst).Pairwise
      (fun a b => strLe a b = true)) ∧
    ("a".data,
      [(⟨"mod".data, "oxidros_zenoh::a".data,
         "pub mod oxidros_zenoh::a".data, "a".data,
         "oxidros_zenoh".data⟩ : ApiItem)]) ∈
      sectionStructure
        (buildRegistry ["pub mod oxidros_zenoh::b".data,
          "pub mod oxidros_zenoh::a".data] "oxidros_zenoh".data)
        ["oxidros::b".data, "oxidros::a".data] ∧
    (("a".data,
      [(⟨"mod".data, "oxidros_zenoh::a".data,
         "pub mod oxidros_zenoh::a".data, "a".data,
         "oxidros_zenoh".data⟩ : ApiItem)]) :
        Str × List ApiItem).2.Pairwise
      (fun a b : ApiItem => strLe a.name b.name = true) :=
  ⟨(report_sections_sorted
      (buildRegistry ["pub mod oxidros_zenoh::b".data,
        "pub mod oxidros_zenoh::a".data] "oxidros_zenoh".data)
      ["oxidros::b".data, "oxidros::a".data]).1,
   by decide,
   (report_sections_sorted
      (buildRegistry ["pub mod oxidros_zenoh::b".data,
        "pub mod oxidros_zenoh::a".data] "oxidros_zenoh".data)
      ["oxidros::b".data, "oxidros::a".data]).2 _ (by decide)⟩

theorem mem_headerLines_common (n2 n3 : Nat) :
    ("| Common APIs | ".data ++ natToStr 0 ++ " |".data) ∈
      headerLines 0 n2 n3 := by
  unfold headerLines
  simp

theorem mem_headerLines_rcl (n2 n3 : Nat) :
    ("| RCL-only APIs | ".data ++ natToStr n3 ++ " |".data) ∈
      headerLines 0 n2 n3 := by
  unfold headerLines
  simp

/-- C8: when a component's raw listing is the empty text (as substituted
after an external-collaborator failure), `extract_apis` returns the empty
registry, and `generate_markdown` still produces the complete report
skeleton rather than failing: all three section headings are present, the
summary counts the common and RCL-only categories as 0, and the RCL-only
section body is empty. -/
theorem empty_listing_degenerate_report (crate : Str) (zenoh : Registry) :
    extract_apis [] crate = [] ∧
    "## Common APIs (Both Backends)".data ∈
      generate_markdown zenoh (extract_apis [] crate) ∧
    "## Zenoh-Only APIs".data ∈
      generate_markdown zenoh (extract_apis [] crate) ∧
    "## RCL-Only APIs".data ∈
      generate_markdown zenoh (extract_apis [] crate) ∧
    "| Common APIs | 0 |".data ∈
      generate_markdown zenoh (extract_apis [] crate) ∧
    "| RCL-only APIs | 0 |".data ∈
      generate_markdown zenoh (extract_apis [] crate) ∧
    sectionLines (extract_apis [] crate)
      (onlyKeys (extract_apis [] crate) zenoh) "oxidros_rcl::".data = [] := by
  have he : extract_apis [] crate = [] := rfl
  rw [he]
  have hc : commonKeys zenoh [] = [] := by
    unfold commonKeys keysList
    simp
  refine ⟨rfl, ?_, ?_, ?_, ?_, ?_, rfl⟩
  all_goals
    unfold generate_markdown
    rw [hc]
    simp only [List.mem_append]
  · exact Or.inl (Or.inl (Or.inl (Or.inl (Or.inl (Or.inr (by decide))))))
  · exact Or.inl (Or.inl (Or.inl (Or.inr (by decide))))
  · exact Or.inl (Or.inr (by decide))
  · refine Or.inl (Or.inl (Or.inl (Or.inl (Or.inl (Or.inl ?_)))))
    exact mem_headerLines_common _ _
  · refine Or.inl (Or.inl (Or.inl (Or.inl (Or.inl (Or.inl ?_)))))
    exact mem_headerLines_rcl _ _

theorem findGroup_sub {m : Str} {it : ApiItem} :
    ∀ bm : List (Str × List ApiItem), it ∈ findGroup bm m →
      ∃ g ∈ bm, it ∈ g.2 := by
  intro bm
  induction bm with
  | nil => intro h; simp [findGroup] at h
  | cons g0 rest ih =>
    obtain ⟨m', its⟩ := g0
    intro h
    simp only [findGroup] at h
    by_cases hm : m' = m
    · rw [if_pos hm] at h
      exact ⟨(m', its), List.mem_cons_self _ _, h⟩
    · rw [if_neg hm] at h
      rcases ih h with ⟨g, hg, hit⟩
      exact ⟨g, List.mem_cons_of_mem _ hg, hit⟩

theorem appendGroup_items {m : Str} {x it : ApiItem} :
    ∀ (bm : List (Str × List ApiItem)) (g : Str × List ApiItem),
      g ∈ appendGroup bm m x → it ∈ g.2 →
      it = x ∨ ∃ g' ∈ bm, it ∈ g'.2 := by
  intro bm
  induction bm with
  | nil =>
    intro g hg hit
    simp only [appendGroup, List.mem_singleton] at hg
    subst hg
    simp only [List.mem_singleton] at hit
    exact Or.inl hit
  | cons g0 rest ih =>
    obtain ⟨m', its⟩ := g0
    intro g hg hit
    simp only [appendGroup] at hg
    by_cases hm : m' = m
    · rw [if_pos hm] at hg
      rcases List.mem_cons.mp hg with hgh | hgt
      · subst hgh
        rcases List.mem_append.mp hit with h1 | h1
        · exact Or.inr ⟨(m', its), List.mem_cons_self _ _, h1⟩
        · simp only [List.mem_singleton] at h1
          exact Or.inl h1
      · exact Or.inr ⟨g, List.mem_cons_of_mem _ hgt, hit⟩
    · rw [if_neg hm] at hg
      rcases List.mem_cons.mp hg with hgh | hgt
      · subst hgh
        exact Or.inr ⟨(m', its), List.mem_cons_self _ _, hit⟩
      · rcases ih g hgt hit with h | ⟨g', hg', hit'⟩
        · exact Or.inl h
        · exact Or.inr ⟨g', List.mem_cons_of_mem _ hg', hit'⟩

theorem foldl_groupStep_items (reg : Registry) (C : ApiItem → Prop) :
    ∀ (ks : List Str) (bm : List (Str × List ApiItem)),
      (∀ g ∈ bm, ∀ it ∈ g.2, C it) →
      (∀ k ∈ ks, ∀ it : ApiItem, lookupReg reg k = some it → C it) →
      ∀ g ∈ ks.foldl (groupStep reg) bm, ∀ it ∈ g.2, C it := by
  intro ks
  induction ks with
  | nil =>
    intro bm hbm _ g hg it hit
    exact hbm g hg it hit
  | cons k0 ks ih =>
    intro bm hbm hks
    simp only [List.foldl_cons]
    apply ih
    · intro g hg it hit
      unfold groupStep at hg
      cases hlk : lookupReg reg k0 with
      | none =>
        rw [hlk] at hg
        exact hbm g hg it hit
      | some item =>
        rw [hlk] at hg
        rcases appendGroup_items _ g hg hit with h | ⟨g', hg', hit'⟩
        · rw [h]
          exact hks k0 (List.mem_cons_self _ _) item hlk
        · exact hbm g' hg' it hit'
    · intro k hk it hlk
      exact hks k (List.mem_cons_of_mem _ hk) it hlk

theorem partGroups_items (reg : Registry) (part : List Str) :
    ∀ g ∈ partGroups reg part, ∀ it ∈ g.2,
      ∃ k ∈ part, lookupReg reg k = some it := by
  unfold partGroups
  apply foldl_groupStep_items reg
    (fun it => ∃ k ∈ part, lookupReg reg k = some it)
  · intro g hg
    simp at hg
  · intro k hk it hlk
    exact ⟨k, (mem_sortBy strLe k part).mp hk, hlk⟩

/-- C10: the Common section is rendered exclusively from the first (zenoh)
registry: every record displayed there is looked up in the zenoh registry
under a common key, and replacing the rcl registry by ANY registry with the
same key set (even one whose records' signatures all differ) leaves the
rendered Common section unchanged. -/
theorem common_section_uses_first_registry (zenoh rcl rcl' : Registry) :
    (∀ blk ∈ sectionStructure zenoh (commonKeys zenoh rcl),
      ∀ it ∈ blk.2,
        ∃ k ∈ commonKeys zenoh rcl, lookupReg zenoh k = some it) ∧
    ((∀ k : Str, (keysList rcl).contains k = (keysList rcl').contains k) →
      sectionLines zenoh (commonKeys zenoh rcl) "oxidros_zenoh::".data =
        sectionLines zenoh (commonKeys zenoh rcl') "oxidros_zenoh::".data) := by
  constructor
  · intro blk hblk it hit
    unfold sectionStructure at hblk
    rcases List.mem_map.mp hblk with ⟨m, _, hm⟩
    subst hm
    have hit' := (mem_sortBy _ it _).mp hit
    rcases findGroup_sub _ hit' with ⟨g, hg, hitg⟩
    exact partGroups_items zenoh (commonKeys zenoh rcl) g hg it hitg
  · intro hkeys
    have hsame : commonKeys zenoh rcl = commonKeys zenoh rcl' := by
      unfold commonKeys
      exact List.filter_congr (fun k _ => hkeys k)
    rw [hsame]

/-- C10 witness: the Common-section theorem applied at concrete registries:
one common key, rcl and rcl' sharing the key set but holding records with
different signatures. -/
theorem common_section_witness :
    (∃ k ∈ commonKeys
        (buildRegistry ["pub mod oxidros_zenoh::a".data]
          "oxidros_zenoh".data)
        (buildRegistry ["pub mod oxidros_rcl::a".data] "oxidros_rcl".data),
      lookupReg
        (buildRegistry ["pub mod oxidros_zenoh::a".data]
          "oxidros_zenoh".data) k =
        some ⟨"mod".data, "oxidros_zenoh::a".data,
          "pub mod oxidros_zenoh::a".data, "a".data,
          "oxidros_zenoh".data⟩) ∧
    sectionLines
        (buildRegistry ["pub mod oxidros_zenoh::a".data]
          "oxidros_zenoh".data)
        (commonKeys
          (buildRegistry ["pub mod oxidros_zenoh::a".data]
            "oxidros_zenoh".data)
          (buildRegistry ["pub mod oxidros_rcl::a".data]
            "oxidros_rcl".data))
        "oxidros_zenoh::".data =
      sectionLines
        (buildRegistry ["pub mod oxidros_zenoh::a".data]
          "oxidros_zenoh".data)
        (commonKeys
          (buildRegistry ["pub mod oxidros_zenoh::a".data]
            "oxidros_zenoh".data)
          (buildRegistry ["pub struct oxidros_rcl::a".data]
            "oxidros_rcl".data))
        "oxidros_zenoh::".data :=
  ⟨(common_section_uses_first_registry
      (buildRegistry ["pub mod oxidros_zenoh::a".data] "oxidros_zenoh".data)
      (buildRegistry ["pub mod oxidros_rcl::a".data] "oxidros_rcl".data)
      (buildRegistry ["pub struct oxidros_rcl::a".data]
        "oxidros_rcl".data)).1
      ("a".data,
        [⟨"mod".data, "oxidros_zenoh::a".data,
          "pub mod oxidros_zenoh::a".data, "a".data, "oxidros_zenoh".data⟩])
      (by decide)
      ⟨"mod".data, "oxidros_zenoh::a".data, "pub mod oxidros_zenoh::a".data,
        "a".data, "oxidros_zenoh".data⟩
      (by decide),
   (common_section_uses_first_registry
      (buildRegistry ["pub mod oxidros_zenoh::a".data] "oxidros_zenoh".data)
      (buildRegistry ["pub mod oxidros_rcl::a".data] "oxidros_rcl".data)
      (buildRegistry ["pub struct oxidros_rcl::a".data]
        "oxidros_rcl".data)).2
      (fun _ => rfl)⟩

theorem dropLenAppend (p q : Str) : (p ++ q).drop p.length = q := by
  induction p with
  | nil => rfl
  | cons c cs ih => simp

theorem takeLenAppend (p q : Str) : (p ++ q).take p.length = p := by
  induction p with
  | nil => rfl
  | cons c cs ih => simp

theorem takeAddAppend (p q : Str) (i : Nat) :
    (p ++ q).take (p.length + i) = p ++ q.take i := by
  induction p with
  | nil => simp
  | cons c cs ih =>
    simp only [List.cons_append, List.length_cons]
    rw [Nat.succ_add, List.take_succ_cons, ih]

theorem getDAppendAt (p q : Str) (c d : Char) :
    (p ++ c :: q).getD p.length d = c := by
  induction p with
  | nil => rfl
  | cons x xs ih => simpa using ih

theorem getDAppendLt (p q : Str) (d : Char) :
    ∀ i, i < p.length → (p ++ q).getD i d = p.getD i d := by
  induction p with
  | nil => intro i h; simp at h
  | cons x xs ih =>
    intro i h
    cases i with
    | zero => rfl
    | succ n =>
      simp only [List.length_cons, Nat.succ_lt_succ_iff] at h
      simpa using ih n h

theorem findLastFeas_feasible {t : Str} :
    ∀ {n j : Nat}, findLastFeas t n = some j → feasibleB t j = true := by
  intro n
  induction n with
  | zero => intro j h; cases h
  | succ m ih =>
    intro j h
    unfold findLastFeas at h
    by_cases hm : feasibleB t m = true
    · rw [if_pos hm] at h
      cases h
      exact hm
    · rw [if_neg hm] at h
      exact ih h

theorem findLastFeas_exists {t : Str} {j0 : Nat}
    (hfeas : feasibleB t j0 = true) :
    ∀ n, j0 < n → ∃ j, findLastFeas t n = some j ∧ j0 ≤ j := by
  intro n
  induction n with
  | zero => intro h; omega
  | succ m ih =>
    intro hlt
    unfold findLastFeas
    by_cases hm : feasibleB t m = true
    · rw [if_pos hm]
      exact ⟨m, rfl, by omega⟩
    · rw [if_neg hm]
      have hj0m : j0 < m := by
        rcases Nat.lt_succ_iff_lt_or_eq.mp hlt with h | h
        · exact h
        · subst h; exact absurd hfeas hm
      exact ih hj0m

/-- C6 counterexample: the claim fails for a single-segment function path:
`pub fn oxidros_zenoh(x)` fits the claimed grammar `pub fn <path>(<args>`
with a whitespace-free path equal to the crate name, triggers none of the
noise predicates, yet the Line Parser produces NO record, because the
function pattern `(\S+::\S+)\(` demands a `::` inside the path. -/
theorem single_segment_fn_rejected_cx :
    parse_api_line "pub fn oxidros_zenoh(x)".data "oxidros_zenoh".data
      = none ∧
    depList.any (fun d => subL d "pub fn oxidros_zenoh(x)".data) = false ∧
    autoList.any (fun m => subL m "pub fn oxidros_zenoh(x)".data) = false ∧
    startsL "oxidros_zenoh(x)".data "oxidros_zenoh".data = true := by
  decide

/-- C6 (amended): for every line of the function grammar
`pub fn <path>(<args>` whose whitespace-free path begins with the owning
crate's name AND contains a `::` separator strictly inside (at least two
segments, as the pattern `\S+::\S+` requires), when no denylisted
dependency fragment and no synthesized-method fragment occurs in the line,
the Line Parser produces a record of kind `fn`. -/
theorem fn_line_two_segments_parses (crate path args : Str)
    (hall : path.all (fun c => !isWS c) = true)
    (hstart : startsL path crate = true)
    (hsep : hasSepInside path = true)
    (hdep : depList.any
        (fun d => subL d ("pub fn ".data ++ (path ++ '(' :: args)))
      = false)
    (hauto : autoList.any
        (fun m => subL m ("pub fn ".data ++ (path ++ '(' :: args)))
      = false) :
    ∃ it : ApiItem,
      parse_api_line ("pub fn ".data ++ (path ++ '(' :: args)) crate
        = some it ∧
      it.kind = "fn".data := by
  set t := path ++ '(' :: args with ht
  set line := "pub fn ".data ++ t with hline
  have hfeas : feasibleB t path.length = true := by
    unfold feasibleB
    simp only [Bool.and_eq_true]
    refine ⟨⟨⟨?_, ?_⟩, ?_⟩, ?_⟩
    · simp only [decide_eq_true_eq, ht, List.length_append,
        List.length_cons]
      omega
    · rw [ht, getDAppendAt]
      rfl
    · rw [ht, takeLenAppend]
      exact hall
    · rcases List.any_eq_true.mp hsep with ⟨i, hi, hcond⟩
      simp only [Bool.and_eq_true, decide_eq_true_eq] at hcond
      obtain ⟨⟨⟨h1i, h2i⟩, h3i⟩, h4i⟩ := hcond
      apply List.any_eq_true.mpr
      refine ⟨i, List.mem_range.mpr (by omega), ?_⟩
      simp only [Bool.and_eq_true, decide_eq_true_eq]
      have hilt : i < path.length := by omega
      have hilt2 : i + 1 < path.length := by omega
      refine ⟨⟨⟨h1i, h2i⟩, ?_⟩, ?_⟩
      · rw [ht, getDAppendLt path ('(' :: args) ' ' i hilt]
        exact h3i
      · rw [ht, getDAppendLt path ('(' :: args) ' ' (i + 1) hilt2]
        exact h4i
  have hlen : path.length < t.length := by
    rw [ht]
    simp only [List.length_append, List.length_cons]
    omega
  obtain ⟨j, hfind, hj⟩ := findLastFeas_exists hfeas t.length hlen
  have hstart7 : startsL line "pub fn ".data = true := by
    rw [hline]
    exact startsL_refl_append _ _
  have hdrop : line.drop 7 = t := by
    rw [hline]
    exact dropLenAppend "pub fn ".data t
  have htake : t.take j = path ++ ('(' :: args).take (j - path.length) := by
    have hjj : j = path.length + (j - path.length) := by omega
    rw [ht]
    calc (path ++ '(' :: args).take j
        = (path ++ '(' :: args).take (path.length + (j - path.length)) := by
          rw [← hjj]
      _ = path ++ ('(' :: args).take (j - path.length) := takeAddAppend _ _ _
  have hstartsub : startsL (t.take j) crate = true := by
    rw [htake]
    exact startsL_append_right _ hstart
  have hdepsub : depList.any (fun d => subL d (t.take j)) = false := by
    rw [Bool.eq_false_iff]
    intro hany
    rcases List.any_eq_true.mp hany with ⟨d, hd, hsub⟩
    have h1 : subL d t = true := subL_of_take hsub
    have h2 : subL d line = true := by
      rw [hline]
      exact subL_append_left _ h1
    have : depList.any (fun d => subL d line) = true :=
      List.any_eq_true.mpr ⟨d, hd, h2⟩
    rw [hdep] at this
    cases this
  unfold parse_api_line
  rw [if_pos hstart7, hdrop]
  unfold fnPath
  rw [hfind]
  simp only [Option.map_some', Option.some_bind]
  unfold finishItem
  rw [if_neg (by simp [hstartsub])]
  rw [if_neg (by simp [hdepsub])]
  rw [if_neg (by simp [hauto])]
  have hb1 : ("fn".data == "type".data) = false := rfl
  have hb2 : ("fn".data == "const".data) = false := rfl
  rw [if_neg (by simp [hb1])]
  rw [if_neg (by simp [hb2])]
  exact ⟨_, rfl, rfl⟩

/-- C6 witness: the amended function-grammar theorem applied at the
concrete line `pub fn oxidros_zenoh::Context::new() -> Self`. -/
theorem fn_line_two_segments_witness :
    ("oxidros_zenoh::Context::new".data.all (fun c => !isWS c) = true) ∧
    startsL "oxidros_zenoh::Context::new".data "oxidros_zenoh".data
      = true ∧
    hasSepInside "oxidros_zenoh::Context::new".data = true ∧
    depList.any (fun d => subL d ("pub fn ".data ++
        ("oxidros_zenoh::Context::new".data ++ '(' :: ") -> Self".data)))
      = false ∧
    autoList.any (fun m => subL m ("pub fn ".data ++
        ("oxidros_zenoh::Context::new".data ++ '(' :: ") -> Self".data)))
      = false ∧
    ∃ it : ApiItem,
      parse_api_line ("pub fn ".data ++
          ("oxidros_zenoh::Context::new".data ++ '(' :: ") -> Self".data))
        "oxidros_zenoh".data = some it ∧
      it.kind = "fn".data :=
  ⟨by decide, by decide, by decide, by decide, by decide,
   fn_line_two_segments_parses "oxidros_zenoh".data
     "oxidros_zenoh::Context::new".data ") -> Self".data
     (by decide) (by decide) (by decide) (by decide) (by decide)⟩
